import Mathlib

/-!
Verification of the 1-D ion-chain equilibrium and normal-mode core of
`bem-comsol` (`src/bemcomsol/mode1d.py`, `src/freqsol.py`, `src/globalvar.py`)
against its natural-language specification.

The Python source is shallowly embedded over `ℝ`.  Machine floats are
modelled as real numbers; `numpy` arrays indexed `0..N-1` become functions
`Fin N → ℝ` (or `List ℝ` where the code treats them as raw data); the
external library calls (`scipy.optimize.root`, `scipy.optimize.root_scalar`,
`np.linalg.eig`, the `UnivariateSpline` fit) are modelled as explicit
parameters or postconditions, while every formula the repository itself
computes is translated term by term.  The one Python exception site
(`raise TypeError` in `unit_to_num`) is modelled with `Except`.
-/

namespace BemComsol

/-- `scipy.constants.e` (elementary charge, exact SI value), bound at module
level in `mode1d.py` line 6 and `globalvar.py` line 3. -/
noncomputable def e : ℝ := 1.602176634e-19

/-- `scipy.constants.pi`, bound in `mode1d.py` line 7. -/
noncomputable def pi : ℝ := Real.pi

/-- `scipy.constants.epsilon_0` (vacuum permittivity, CODATA 2018 value),
bound in `mode1d.py` line 8. -/
noncomputable def epsilon0 : ℝ := 8.8541878128e-12

/-- `mCa = 40.078 * scipy.constants.u`, the calcium-ion mass from
`mode1d.py` line 9 (`scipy.constants.u` is the CODATA 2018 atomic mass
constant). -/
noncomputable def mCa : ℝ := 40.078 * 1.66053906660e-27

/-- The fixed length scale `r0 = 400e-6` of `globalvar.py` line 6, used by
the `freqsol.py` solver family. -/
noncomputable def r0glob : ℝ := 400e-6

/-- `unit_to_num` from `mode1d.py` lines 12-25: maps a unit tag to the
factor converting it to meters; any other tag raises
`TypeError('No type matching!')`, modelled as `Except.error`. -/
def unit_to_num (unit : String) : Except String ℝ :=
  if unit = "[m]" ∨ unit = "m" then .ok 1
  else if unit = "[mm]" ∨ unit = "mm" then .ok 1e-3
  else if unit = "[um]" ∨ unit = "um" then .ok 1e-6
  else if unit = "[nm]" ∨ unit = "nm" then .ok 1e-9
  else .error "No type matching!"

/-- The residual vector built identically by `eqposition.solfun`
(`mode1d.py` lines 126-130), `eqposition_analytic.solfun` (lines 235-239),
`Eqposition.func` (`freqsol.py` lines 39-43) and `eqposition_sym.dfunc`
(lines 67-71): component `n` is
`dV(zeta[n]) + e/(4*pi*epsilon0*r0) * (-sum(1/(zeta[n]-zeta[:n])**2) + sum(1/(zeta[n]-zeta[n+1:])**2))`.
The first derivative of the potential (a spline derivative in the sampled
paths, a user callable in the analytic ones) is the parameter `dV`, and the
length scale in force at the call site is the parameter `r0`. -/
noncomputable def solfun (N : ℕ) (dV : ℝ → ℝ) (r0 : ℝ) (zeta : Fin N → ℝ) (n : Fin N) : ℝ :=
  dV (zeta n) + e / (4 * pi * epsilon0 * r0) *
    (-(∑ j ∈ Finset.univ.filter (fun j => j < n), 1 / (zeta n - zeta j) ^ 2)
      + ∑ j ∈ Finset.univ.filter (fun j => n < j), 1 / (zeta n - zeta j) ^ 2)

/-- The dimensionless Coulomb coupling constant of the spec,
`κ = e/(4πε₀·r0)`. -/
noncomputable def kappa (r0 : ℝ) : ℝ := e / (4 * pi * epsilon0 * r0)

/-- The force-balance system exactly as the spec writes it (spec §4.3):
`F_n(ζ) = V'(ζ_n) + κ * ( -Σ_{j<n} 1/(ζ_n-ζ_j)^2 + Σ_{j>n} 1/(ζ_n-ζ_j)^2 )`
with `κ = e/(4πε₀·r0)`. -/
noncomputable def Fspec (N : ℕ) (dV : ℝ → ℝ) (r0 : ℝ) (zeta : Fin N → ℝ) (n : Fin N) : ℝ :=
  dV (zeta n) + kappa r0 *
    (-(∑ j ∈ Finset.Iio n, 1 / (zeta n - zeta j) ^ 2)
      + ∑ j ∈ Finset.Ioi n, 1 / (zeta n - zeta j) ^ 2)

lemma filter_lt_eq_Iio {N : ℕ} (n : Fin N) :
    Finset.univ.filter (fun j => j < n) = Finset.Iio n := by
  ext j; simp

lemma filter_gt_eq_Ioi {N : ℕ} (n : Fin N) :
    Finset.univ.filter (fun j => n < j) = Finset.Ioi n := by
  ext j; simp

/-- Claim C1: for every ion count `N ≥ 1` and every dimensionless position
vector with pairwise-distinct components, the `n`-th residual component the
equilibrium solvers hand to the nonlinear root finder equals the spec's
force-balance expression
`V'(ζ_n) + κ * ( -Σ_{j<n} 1/(ζ_n-ζ_j)^2 + Σ_{j>n} 1/(ζ_n-ζ_j)^2 )`
with `κ = e/(4πε₀·r0)`. -/
theorem solfun_matches_spec_force (N : ℕ) (dV : ℝ → ℝ) (r0 : ℝ) (zeta : Fin N → ℝ)
    (hN : 1 ≤ N) (hdist : ∀ i j : Fin N, i ≠ j → zeta i ≠ zeta j) (n : Fin N) :
    solfun N dV r0 zeta n = Fspec N dV r0 zeta n := by
  unfold solfun Fspec kappa
  rw [filter_lt_eq_Iio, filter_gt_eq_Ioi]

/-- Witness for `solfun_matches_spec_force` at `N = 2`, `ζ = (0, 1)`. -/
theorem solfun_matches_spec_force_witness :
    1 ≤ 2 ∧ (∀ i j : Fin 2, i ≠ j → (![0, 1] : Fin 2 → ℝ) i ≠ ![0, 1] j) ∧
      solfun 2 (fun x => x) 1 ![0, 1] 0 = Fspec 2 (fun x => x) 1 ![0, 1] 0 := by
  have hd : ∀ i j : Fin 2, i ≠ j → (![0, 1] : Fin 2 → ℝ) i ≠ ![0, 1] j := by
    intro i j hij
    fin_cases i <;> fin_cases j <;> simp_all <;> norm_num
  exact ⟨by norm_num, hd, solfun_matches_spec_force 2 (fun x => x) 1 ![0, 1] (by norm_num) hd 0⟩

/-- Claim C8: `unit_to_num` returns `1` for `m`/`[m]`, `1e-3` for `mm`/`[mm]`,
`1e-6` for `um`/`[um]`, `1e-9` for `nm`/`[nm]` (bracketed and bare spellings
agree), and fails with the unrecognized-unit error on every other tag. -/
theorem unit_to_num_cases :
    unit_to_num "m" = .ok 1 ∧ unit_to_num "[m]" = .ok 1 ∧
    unit_to_num "mm" = .ok 1e-3 ∧ unit_to_num "[mm]" = .ok 1e-3 ∧
    unit_to_num "um" = .ok 1e-6 ∧ unit_to_num "[um]" = .ok 1e-6 ∧
    unit_to_num "nm" = .ok 1e-9 ∧ unit_to_num "[nm]" = .ok 1e-9 ∧
    ∀ s : String, s ∉ ["m", "[m]", "mm", "[mm]", "um", "[um]", "nm", "[nm]"] →
      unit_to_num s = .error "No type matching!" := by
  refine ⟨rfl, rfl, rfl, rfl, rfl, rfl, rfl, rfl, ?_⟩
  intro s hs
  simp only [List.mem_cons, List.not_mem_nil, or_false, not_or] at hs
  obtain ⟨h1, h2, h3, h4, h5, h6, h7, h8⟩ := hs
  unfold unit_to_num
  rw [if_neg (by tauto), if_neg (by tauto), if_neg (by tauto), if_neg (by tauto)]

/-- Witness for the error clause of `unit_to_num_cases` at the tag `ft`. -/
theorem unit_to_num_cases_witness :
    "ft" ∉ ["m", "[m]", "mm", "[mm]", "um", "[um]", "nm", "[nm]"] ∧
      unit_to_num "ft" = .error "No type matching!" :=
  ⟨by decide, unit_to_num_cases.2.2.2.2.2.2.2.2 "ft" (by decide)⟩

/-- The value returned by `eqposition_sym` (`mode1d.py` lines 81-84) and, with
`zlim = 1`, by `SymEqposition` (`freqsol.py` lines 26-28): the code sets
`zeta0 = np.array([-eqpos, eqpos])` and returns `z0 = zeta0 * zlim`, where
`eqpos` is whatever root `scipy.optimize.root_scalar(..., method='bisect')`
yields; that external bisection result is the parameter `eqpos`. -/
def eqposition_sym_return (zlim eqpos : ℝ) : Fin 2 → ℝ :=
  fun i => (![-eqpos, eqpos]) i * zlim

/-- Claim C4: the symmetric 2-ion solver always returns a two-element vector
of the form `[-p, p]` scaled by `zlim`: the two returned positions have equal
magnitude and sum to exactly zero. -/
theorem eqposition_sym_return_symmetric (zlim eqpos : ℝ) :
    eqposition_sym_return zlim eqpos 0 + eqposition_sym_return zlim eqpos 1 = 0 ∧
      |eqposition_sym_return zlim eqpos 0| = |eqposition_sym_return zlim eqpos 1| := by
  constructor
  · simp [eqposition_sym_return]
  · simp only [eqposition_sym_return, Matrix.cons_val_zero, Matrix.cons_val_one,
      Matrix.head_cons, neg_mul]
    rw [abs_neg]

/-- The bracket-expansion loop of `eqposition_sym` (`mode1d.py` lines 77-78)
and `SymEqposition` (`freqsol.py` lines 23-24):
`while solfunc(pos0)*solfunc(pos0+step)>0: pos0 = pos0 + step`.
The unbounded `while` is embedded with an explicit fuel count; the loop
terminates exactly when some fuel suffices, and the scalar function `g`
stands for the solver's `solfunc`. -/
noncomputable def bracketScan (g : ℝ → ℝ) (step : ℝ) : ℝ → ℕ → Option ℝ
  | _, 0 => none
  | pos0, fuel + 1 =>
      if g pos0 * g (pos0 + step) > 0 then bracketScan g step (pos0 + step) fuel
      else some pos0

lemma bracketScan_succ (g : ℝ → ℝ) (step pos0 : ℝ) (fuel : ℕ) :
    bracketScan g step pos0 (fuel + 1) =
      if g pos0 * g (pos0 + step) > 0 then bracketScan g step (pos0 + step) fuel
      else some pos0 := rfl

/-- Claim C5: the symmetric solver's bracket search, started at `pos0` and
advancing by the fixed `step`, terminates if and only if some interval
`[pos0 + k*step, pos0 + (k+1)*step]` carries a sign change of the scalar
function (product of endpoint values `≤ 0`); with no such `k` it loops
forever, there being no maximum-iteration guard. -/
theorem bracketScan_terminates_iff (g : ℝ → ℝ) (pos0 step : ℝ) :
    (∃ fuel r, bracketScan g step pos0 fuel = some r) ↔
      ∃ k : ℕ, g (pos0 + k * step) * g (pos0 + (k + 1) * step) ≤ 0 := by
  constructor
  · rintro ⟨fuel, r, hr⟩
    induction fuel generalizing pos0 with
    | zero => simp [bracketScan] at hr
    | succ fuel ih =>
        rw [bracketScan_succ] at hr
        by_cases h : g pos0 * g (pos0 + step) > 0
        · rw [if_pos h] at hr
          obtain ⟨k, hk⟩ := ih (pos0 + step) hr
          refine ⟨k + 1, ?_⟩
          have e1 : pos0 + (↑(k + 1) : ℝ) * step = pos0 + step + ↑k * step := by
            push_cast; ring
          have e2 : pos0 + ((↑(k + 1) : ℝ) + 1) * step = pos0 + step + (↑k + 1) * step := by
            push_cast; ring
          rw [e1, e2]; exact hk
        · refine ⟨0, ?_⟩
          push_neg at h
          simpa using h
  · rintro ⟨k, hk⟩
    induction k generalizing pos0 with
    | zero =>
        refine ⟨1, pos0, ?_⟩
        rw [bracketScan_succ, if_neg (by simpa using not_lt.mpr (by simpa using hk))]
    | succ k ih =>
        by_cases h : g pos0 * g (pos0 + step) > 0
        · have hk' : g (pos0 + step + ↑k * step) * g (pos0 + step + (↑k + 1) * step) ≤ 0 := by
            have e1 : pos0 + step + (↑k : ℝ) * step = pos0 + ↑(k + 1) * step := by
              push_cast; ring
            have e2 : pos0 + step + ((↑k : ℝ) + 1) * step = pos0 + (↑(k + 1) + 1) * step := by
              push_cast; ring
            rw [e1, e2]; exact hk
          obtain ⟨fuel, r, hr⟩ := ih (pos0 + step) hk'
          exact ⟨fuel + 1, r, by rw [bracketScan_succ, if_pos h]; exact hr⟩
        · exact ⟨1, pos0, by rw [bracketScan_succ, if_neg h]⟩

/-- The Hessian-like matrix `ddU` built by `mode1d` (`mode1d.py` lines
190-197), `mode1d_analytic` (lines 283-290) and `AxialFull` (`freqsol.py`
lines 58-65): diagonal
`4*pi*epsilon0*r0/e * ddV(zeta0[i]) + 2*(sum(1/(zeta0[i]-zeta0[:i])**3) - sum(1/(zeta0[i]-zeta0[i+1:])**3))`,
off-diagonal `-2/np.absolute(zeta0[i]-zeta0[j])**3`.  The second derivative
of the potential (spline derivative or user callable) is the parameter
`ddV`. -/
noncomputable def ddU (N : ℕ) (ddV : ℝ → ℝ) (r0 : ℝ) (zeta0 : Fin N → ℝ) :
    Matrix (Fin N) (Fin N) ℝ :=
  Matrix.of fun i j =>
    if j = i then
      4 * pi * epsilon0 * r0 / e * ddV (zeta0 i)
        + 2 * ((∑ p ∈ Finset.univ.filter (fun p => p < i), 1 / (zeta0 i - zeta0 p) ^ 3)
          - ∑ p ∈ Finset.univ.filter (fun p => i < p), 1 / (zeta0 i - zeta0 p) ^ 3)
    else -2 / |zeta0 i - zeta0 j| ^ 3

/-- Claim C6: for every ion count and every vector of pairwise-distinct
equilibrium positions, the `ddU` matrix built by the normal-mode solver is
exactly symmetric, every off-diagonal entry `-2/|ζ_i-ζ_j|^3` depending only
on the magnitude of the pairwise difference. -/
theorem ddU_symmetric (N : ℕ) (ddV : ℝ → ℝ) (r0 : ℝ) (zeta0 : Fin N → ℝ)
    (hdist : ∀ i j : Fin N, i ≠ j → zeta0 i ≠ zeta0 j) (i j : Fin N) :
    ddU N ddV r0 zeta0 i j = ddU N ddV r0 zeta0 j i := by
  rcases eq_or_ne i j with h | h
  · rw [h]
  · simp only [ddU, Matrix.of_apply, if_neg h.symm, if_neg h]
    rw [abs_sub_comm]

/-- Witness for `ddU_symmetric` at `N = 2`, `ζ0 = (0, 1)`. -/
theorem ddU_symmetric_witness :
    (∀ i j : Fin 2, i ≠ j → (![0, 1] : Fin 2 → ℝ) i ≠ ![0, 1] j) ∧
      ddU 2 (fun x => x) 1 ![0, 1] 0 1 = ddU 2 (fun x => x) 1 ![0, 1] 1 0 := by
  have hd : ∀ i j : Fin 2, i ≠ j → (![0, 1] : Fin 2 → ℝ) i ≠ ![0, 1] j := by
    intro i j hij
    fin_cases i <;> fin_cases j <;> simp_all <;> norm_num
  exact ⟨hd, ddU_symmetric 2 (fun x => x) 1 ![0, 1] hd 0 1⟩

/-- The eigenvalue-to-frequency transform applied elementwise on the last
line of `mode1d` (`mode1d.py` line 203), `mode1d_analytic` (line 296) and
`AxialMode` (`freqsol.py` line 77):
`np.sqrt(w/m*1/r0**2 * e**2/(4*pi*epsilon0*r0))/(2*pi)` with `m = mCa`. -/
noncomputable def freqOfEig (r0 w : ℝ) : ℝ :=
  Real.sqrt (w / mCa * 1 / r0 ^ 2 * e ^ 2 / (4 * pi * epsilon0 * r0)) / (2 * pi)

/-- The frequency vector the normal-mode solvers return: the eigenvalue list
`w` already reordered ascending (`idx = np.argsort(w); w = w[idx]`, the
contract of the external `numpy` sort), mapped through `freqOfEig`. -/
noncomputable def axialFreqs (r0 : ℝ) (w : List ℝ) : List ℝ :=
  w.map (freqOfEig r0)

lemma e_pos : 0 < e := by unfold e; norm_num

lemma epsilon0_pos : 0 < epsilon0 := by unfold epsilon0; norm_num

lemma piBem_pos : 0 < pi := by unfold pi; exact Real.pi_pos

lemma mCa_pos : 0 < mCa := by unfold mCa; norm_num

lemma freq_factor_pos (r0 : ℝ) (hr0 : 0 < r0) :
    (0:ℝ) < 1 / mCa * 1 / r0 ^ 2 * e ^ 2 / (4 * pi * epsilon0 * r0) := by
  have hm := mCa_pos
  have he := e_pos
  have heps := epsilon0_pos
  have hpi := piBem_pos
  positivity

lemma freqOfEig_mono (r0 : ℝ) (hr0 : 0 < r0) {a b : ℝ} (hab : a ≤ b) :
    freqOfEig r0 a ≤ freqOfEig r0 b := by
  have hpi := piBem_pos
  have h2pi : (0:ℝ) < 2 * pi := by linarith
  have hC : (0:ℝ) ≤ 1 / mCa * 1 / r0 ^ 2 * e ^ 2 / (4 * pi * epsilon0 * r0) :=
    (freq_factor_pos r0 hr0).le
  unfold freqOfEig
  apply div_le_div_of_nonneg_right ?_ h2pi.le |>.trans_eq rfl
  apply Real.sqrt_le_sqrt
  have ea : a / mCa * 1 / r0 ^ 2 * e ^ 2 / (4 * pi * epsilon0 * r0)
      = a * (1 / mCa * 1 / r0 ^ 2 * e ^ 2 / (4 * pi * epsilon0 * r0)) := by ring
  have eb : b / mCa * 1 / r0 ^ 2 * e ^ 2 / (4 * pi * epsilon0 * r0)
      = b * (1 / mCa * 1 / r0 ^ 2 * e ^ 2 / (4 * pi * epsilon0 * r0)) := by ring
  rw [ea, eb]
  exact mul_le_mul_of_nonneg_right hab hC

/-- Claim C7: whenever all eigenvalues of the Hessian are real and
non-negative, the frequency vector returned by the normal-mode solver is
sorted ascending by the underlying eigenvalue (the eigenvalue list is the
ascending `argsort` reordering), and hence also ascending in frequency,
the transform `sqrt(w/m * (1/r0^2) * e^2/(4πε₀ r0))/(2π)` being monotone
there. -/
theorem axialFreqs_sorted (r0 : ℝ) (w : List ℝ) (hr0 : 0 < r0)
    (hsorted : List.Sorted (· ≤ ·) w) (hnn : ∀ x ∈ w, 0 ≤ x) :
    List.Sorted (· ≤ ·) (axialFreqs r0 w) :=
  List.Pairwise.map (freqOfEig r0) (fun _ _ hab => freqOfEig_mono r0 hr0 hab) hsorted

/-- Witness for `axialFreqs_sorted` at `r0 = 1`, eigenvalues `[0, 1, 4]`. -/
theorem axialFreqs_sorted_witness :
    (0:ℝ) < 1 ∧ List.Sorted (· ≤ ·) [(0:ℝ), 1, 4] ∧ (∀ x ∈ [(0:ℝ), 1, 4], 0 ≤ x) ∧
      List.Sorted (· ≤ ·) (axialFreqs 1 [0, 1, 4]) := by
  have h1 : List.Sorted (· ≤ ·) [(0:ℝ), 1, 4] := by
    norm_num [List.sorted_cons]
  have h2 : ∀ x ∈ [(0:ℝ), 1, 4], 0 ≤ x := by
    intro x hx
    simp only [List.mem_cons, List.not_mem_nil, or_false] at hx
    rcases hx with h | h | h <;> rw [h] <;> norm_num
  exact ⟨by norm_num, h1, h2, axialFreqs_sorted 1 [0, 1, 4] (by norm_num) h1 h2⟩

lemma fin2_filter_lt_zero :
    Finset.univ.filter (fun p : Fin 2 => p < 0) = ∅ := by decide

lemma fin2_filter_zero_lt :
    Finset.univ.filter (fun p : Fin 2 => 0 < p) = {1} := by decide

lemma fin2_filter_lt_one :
    Finset.univ.filter (fun p : Fin 2 => p < 1) = {0} := by decide

lemma fin2_filter_one_lt :
    Finset.univ.filter (fun p : Fin 2 => 1 < p) = ∅ := by decide

lemma ddU_two (ddV : ℝ → ℝ) (r0 : ℝ) (z : Fin 2 → ℝ) :
    ddU 2 ddV r0 z 0 0 = 4 * pi * epsilon0 * r0 / e * ddV (z 0) - 2 * (1 / (z 0 - z 1) ^ 3) ∧
    ddU 2 ddV r0 z 1 1 = 4 * pi * epsilon0 * r0 / e * ddV (z 1) + 2 * (1 / (z 1 - z 0) ^ 3) ∧
    ddU 2 ddV r0 z 0 1 = -2 / |z 0 - z 1| ^ 3 ∧
    ddU 2 ddV r0 z 1 0 = -2 / |z 1 - z 0| ^ 3 := by
  refine ⟨?_, ?_, ?_, ?_⟩
  · simp only [ddU, Matrix.of_apply]
    rw [if_pos trivial, fin2_filter_lt_zero, fin2_filter_zero_lt, Finset.sum_empty,
      Finset.sum_singleton]
    ring
  · simp only [ddU, Matrix.of_apply]
    rw [if_pos trivial, fin2_filter_lt_one, fin2_filter_one_lt, Finset.sum_singleton,
      Finset.sum_empty]
    ring
  · simp only [ddU, Matrix.of_apply]
    rw [if_neg (by decide : ¬ (1 : Fin 2) = 0)]
  · simp only [ddU, Matrix.of_apply]
    rw [if_neg (by decide : ¬ (0 : Fin 2) = 1)]

/-- Modelled from the spec: the external `np.linalg.eig` call followed by the
ascending `np.argsort` reordering (`mode1d.py` lines 198-200) is not in the
repository; for the 2×2 case it is modelled by the two roots of the
characteristic polynomial, smaller one first.  For the symmetric matrices
`ddU` builds, the discriminant is non-negative and these are exactly the
real eigenvalues in ascending order. -/
noncomputable def eig2sorted (A : Matrix (Fin 2) (Fin 2) ℝ) : ℝ × ℝ :=
  ((A 0 0 + A 1 1 - Real.sqrt ((A 0 0 - A 1 1) ^ 2 + 4 * (A 0 1 * A 1 0))) / 2,
   (A 0 0 + A 1 1 + Real.sqrt ((A 0 0 - A 1 1) ^ 2 + 4 * (A 0 1 * A 1 0))) / 2)

lemma eig2sorted_are_eigenvalues (A : Matrix (Fin 2) (Fin 2) ℝ)
    (hdisc : 0 ≤ (A 0 0 - A 1 1) ^ 2 + 4 * (A 0 1 * A 1 0)) :
    (A 0 0 - (eig2sorted A).1) * (A 1 1 - (eig2sorted A).1) - A 0 1 * A 1 0 = 0 ∧
    (A 0 0 - (eig2sorted A).2) * (A 1 1 - (eig2sorted A).2) - A 0 1 * A 1 0 = 0 := by
  have hs : Real.sqrt ((A 0 0 - A 1 1) ^ 2 + 4 * (A 0 1 * A 1 0)) ^ 2
      = (A 0 0 - A 1 1) ^ 2 + 4 * (A 0 1 * A 1 0) := Real.sq_sqrt hdisc
  constructor <;>
    · simp only [eig2sorted]
      nlinarith [hs]

/-- The frequency pair the normal-mode solver computes for `N = 2`
(`mode1d.py` lines 190-203 and 283-296, `freqsol.py` lines 57-77): the
`ddU` matrix's eigenvalues sorted ascending, each sent through the
eigenvalue-to-frequency transform. -/
noncomputable def mode1d2 (ddV : ℝ → ℝ) (r0 : ℝ) (z0 : Fin 2 → ℝ) : ℝ × ℝ :=
  (freqOfEig r0 (eig2sorted (ddU 2 ddV r0 z0)).1,
   freqOfEig r0 (eig2sorted (ddU 2 ddV r0 z0)).2)

lemma eig2sorted_swap (A B : Matrix (Fin 2) (Fin 2) ℝ)
    (h00 : B 0 0 = A 1 1) (h11 : B 1 1 = A 0 0) (hoff : B 0 1 * B 1 0 = A 0 1 * A 1 0) :
    eig2sorted B = eig2sorted A := by
  simp only [eig2sorted, h00, h11, hoff, Prod.mk.injEq]
  constructor <;>
    · rw [show (A 1 1 - A 0 0) ^ 2 = (A 0 0 - A 1 1) ^ 2 by ring]
      ring

/-- Claim C3 (amended): for `N = 2` the frequency spectrum is unchanged when
the equilibrium vector is negated AND its index order reversed (with the
correspondingly reflected curvature function); negation alone does not
preserve it (see the counterexample). -/
theorem mode1d2_neg_reverse_invariant (ddV : ℝ → ℝ) (r0 : ℝ) (z0 : Fin 2 → ℝ) :
    mode1d2 (fun x => ddV (-x)) r0 ![-(z0 1), -(z0 0)] = mode1d2 ddV r0 z0 := by
  obtain ⟨hA00, hA11, hA01, hA10⟩ := ddU_two ddV r0 z0
  obtain ⟨hB00, hB11, hB01, hB10⟩ := ddU_two (fun x => ddV (-x)) r0 ![-(z0 1), -(z0 0)]
  simp only [Matrix.cons_val_zero, Matrix.cons_val_one, Matrix.head_cons, neg_neg]
    at hB00 hB11 hB01 hB10
  have hd1 : -(z0 1) - -(z0 0) = z0 0 - z0 1 := by ring
  have hd2 : -(z0 0) - -(z0 1) = z0 1 - z0 0 := by ring
  rw [hd1] at hB00 hB01
  rw [hd2] at hB11 hB10
  have hcube : (1 : ℝ) / (z0 1 - z0 0) ^ 3 = -(1 / (z0 0 - z0 1) ^ 3) := by
    rw [show z0 1 - z0 0 = -(z0 0 - z0 1) by ring, Odd.neg_pow (by decide : Odd 3), one_div,
      one_div, inv_neg]
  have habs : |z0 1 - z0 0| = |z0 0 - z0 1| := abs_sub_comm _ _
  have heig : eig2sorted (ddU 2 (fun x => ddV (-x)) r0 ![-(z0 1), -(z0 0)])
      = eig2sorted (ddU 2 ddV r0 z0) := by
    apply eig2sorted_swap
    · rw [hB00, hA11, hcube]; ring
    · rw [hB11, hA00, hcube]; ring
    · rw [hB01, hB10, hA01, hA10, habs]
  simp only [mode1d2, heig]

/-- Concrete harmonic first-derivative `V'(ζ) = 2κ·ζ` (with `r0 = 1`, the
analytic path's length scale for unit tag `m`), chosen so that
`ζ = (-1/2, 1/2)` is an exact equilibrium of the force-balance system. -/
noncomputable def dVc : ℝ → ℝ := fun x => 2 * kappa 1 * x

/-- The matching constant curvature `V''(ζ) = 2κ`. -/
noncomputable def ddVc : ℝ → ℝ := fun _ => 2 * kappa 1

/-- The concrete equilibrium configuration `ζ = (-1/2, 1/2)`. -/
noncomputable def zetaC : Fin 2 → ℝ := ![-(1/2 : ℝ), 1/2]

lemma sqrt_sixteen : Real.sqrt 16 = 4 := by
  rw [show (16:ℝ) = 4 ^ 2 by norm_num, Real.sqrt_sq (by norm_num : (0:ℝ) ≤ 4)]

lemma Kdd (x : ℝ) : 4 * pi * epsilon0 * 1 / e * ddVc x = 2 := by
  have he := e_pos.ne'
  have hpi := piBem_pos.ne'
  have heps := epsilon0_pos.ne'
  unfold ddVc kappa
  field_simp
  ring

lemma eigA_eval : eig2sorted (ddU 2 ddVc 1 zetaC) = (2, 6) := by
  have eA00 : ddU 2 ddVc 1 zetaC 0 0 = 4 := by
    rw [(ddU_two ddVc 1 zetaC).1, Kdd]
    norm_num [zetaC, Matrix.cons_val_zero, Matrix.cons_val_one, Matrix.head_cons]
  have eA11 : ddU 2 ddVc 1 zetaC 1 1 = 4 := by
    rw [(ddU_two ddVc 1 zetaC).2.1, Kdd]
    norm_num [zetaC, Matrix.cons_val_zero, Matrix.cons_val_one, Matrix.head_cons]
  have eA01 : ddU 2 ddVc 1 zetaC 0 1 = -2 := by
    rw [(ddU_two ddVc 1 zetaC).2.2.1]
    norm_num [zetaC, Matrix.cons_val_zero, Matrix.cons_val_one, Matrix.head_cons]
  have eA10 : ddU 2 ddVc 1 zetaC 1 0 = -2 := by
    rw [(ddU_two ddVc 1 zetaC).2.2.2]
    norm_num [zetaC, Matrix.cons_val_zero, Matrix.cons_val_one, Matrix.head_cons]
  unfold eig2sorted
  rw [eA00, eA11, eA01, eA10,
    show ((4:ℝ) - 4) ^ 2 + 4 * (-2 * -2) = 16 by norm_num, sqrt_sixteen]
  norm_num

lemma eigB_eval :
    eig2sorted (ddU 2 (fun x => ddVc (-x)) 1 (fun i => -zetaC i)) = (-2, 2) := by
  have eB00 : ddU 2 (fun x => ddVc (-x)) 1 (fun i => -zetaC i) 0 0 = 0 := by
    rw [(ddU_two (fun x => ddVc (-x)) 1 (fun i => -zetaC i)).1, Kdd]
    norm_num [zetaC, Matrix.cons_val_zero, Matrix.cons_val_one, Matrix.head_cons]
  have eB11 : ddU 2 (fun x => ddVc (-x)) 1 (fun i => -zetaC i) 1 1 = 0 := by
    rw [(ddU_two (fun x => ddVc (-x)) 1 (fun i => -zetaC i)).2.1, Kdd]
    norm_num [zetaC, Matrix.cons_val_zero, Matrix.cons_val_one, Matrix.head_cons]
  have eB01 : ddU 2 (fun x => ddVc (-x)) 1 (fun i => -zetaC i) 0 1 = -2 := by
    rw [(ddU_two (fun x => ddVc (-x)) 1 (fun i => -zetaC i)).2.2.1]
    norm_num [zetaC, Matrix.cons_val_zero, Matrix.cons_val_one, Matrix.head_cons]
  have eB10 : ddU 2 (fun x => ddVc (-x)) 1 (fun i => -zetaC i) 1 0 = -2 := by
    rw [(ddU_two (fun x => ddVc (-x)) 1 (fun i => -zetaC i)).2.2.2]
    norm_num [zetaC, Matrix.cons_val_zero, Matrix.cons_val_one, Matrix.head_cons]
  unfold eig2sorted
  rw [eB00, eB11, eB01, eB10,
    show ((0:ℝ) - 0) ^ 2 + 4 * (-2 * -2) = 16 by norm_num, sqrt_sixteen]
  norm_num

lemma freqOfEig_one_neg_two : freqOfEig 1 (-2) = 0 := by
  unfold freqOfEig
  rw [Real.sqrt_eq_zero'.mpr, zero_div]
  rw [show (-2:ℝ) / mCa * 1 / 1 ^ 2 * e ^ 2 / (4 * pi * epsilon0 * 1)
      = -2 * (1 / mCa * 1 / 1 ^ 2 * e ^ 2 / (4 * pi * epsilon0 * 1)) by ring]
  exact mul_nonpos_of_nonpos_of_nonneg (by norm_num) (freq_factor_pos 1 one_pos).le

lemma freqOfEig_one_two_pos : 0 < freqOfEig 1 2 := by
  unfold freqOfEig
  apply div_pos
  · apply Real.sqrt_pos.mpr
    rw [show (2:ℝ) / mCa * 1 / 1 ^ 2 * e ^ 2 / (4 * pi * epsilon0 * 1)
        = 2 * (1 / mCa * 1 / 1 ^ 2 * e ^ 2 / (4 * pi * epsilon0 * 1)) by ring]
    exact mul_pos two_pos (freq_factor_pos 1 one_pos)
  · have := piBem_pos; linarith

/-- Counterexample to claim C3 as stated: `ζ = (-1/2, 1/2)` is an exact
equilibrium of the harmonic potential `V' = dVc` (first conjunct), yet the
normal-mode solver's frequency pair at the negated configuration `-ζ`, with
the reflected curvature function, differs from the pair at `ζ`: the `ddU`
diagonal's Coulomb term depends on the index order of the positions, turning
the spectrum `(2, 6)` into `(-2, 2)` and the lowest frequency into the
square root of a negative number. -/
theorem mode1d2_changed_by_negation :
    (∀ n : Fin 2, solfun 2 dVc 1 zetaC n = 0) ∧
      mode1d2 (fun x => ddVc (-x)) 1 (fun i => -zetaC i) ≠ mode1d2 ddVc 1 zetaC := by
  constructor
  · have h0 : solfun 2 dVc 1 zetaC 0 = 0 := by
      simp only [solfun, fin2_filter_lt_zero, fin2_filter_zero_lt, Finset.sum_empty,
        Finset.sum_singleton]
      rw [show zetaC 0 = -(1/2 : ℝ) from rfl, show zetaC 1 = (1/2 : ℝ) from rfl,
        show dVc (-(1/2 : ℝ)) = 2 * kappa 1 * (-(1/2)) from rfl,
        show (-(1/2 : ℝ)) - 1/2 = -1 from by norm_num]
      unfold kappa
      ring
    have h1 : solfun 2 dVc 1 zetaC 1 = 0 := by
      simp only [solfun, fin2_filter_lt_one, fin2_filter_one_lt, Finset.sum_empty,
        Finset.sum_singleton]
      rw [show zetaC 0 = -(1/2 : ℝ) from rfl, show zetaC 1 = (1/2 : ℝ) from rfl,
        show dVc (1/2 : ℝ) = 2 * kappa 1 * (1/2) from rfl,
        show (1/2 : ℝ) - -(1/2) = 1 from by norm_num]
      unfold kappa
      ring
    intro n
    fin_cases n
    · exact h0
    · exact h1
  · intro hcontra
    unfold mode1d2 at hcontra
    rw [eigA_eval, eigB_eval] at hcontra
    simp only [Prod.mk.injEq] at hcontra
    rw [freqOfEig_one_neg_two] at hcontra
    exact absurd hcontra.1.symm (ne_of_gt freqOfEig_one_two_pos)

lemma r0glob_pos : 0 < r0glob := by unfold r0glob; norm_num

/-- The Jacobian handed to `scipy.optimize.root` by `eqposition.jac`
(`mode1d.py` lines 132-140), `eqposition_analytic.jac` (lines 241-249) and
`Eqposition.jac` (`freqsol.py` lines 45-53): diagonal
`ddV(zeta[i]) + e/(4*pi*epsilon0*r0)*2*(sum(1/(zeta[i]-zeta[:i])**3)-sum(1/(zeta[i]-zeta[i+1:])**3))`,
off-diagonal `-2*e/(4*pi*epsilon0*r0)/np.absolute(zeta[i]-zeta[j])**3`. -/
noncomputable def jac (N : ℕ) (ddV : ℝ → ℝ) (r0 : ℝ) (zeta : Fin N → ℝ) :
    Matrix (Fin N) (Fin N) ℝ :=
  Matrix.of fun i j =>
    if j = i then
      ddV (zeta i) + e / (4 * pi * epsilon0 * r0) * 2 *
        ((∑ p ∈ Finset.univ.filter (fun p => p < i), 1 / (zeta i - zeta p) ^ 3)
          - ∑ p ∈ Finset.univ.filter (fun p => i < p), 1 / (zeta i - zeta p) ^ 3)
    else -2 * e / (4 * pi * epsilon0 * r0) / |zeta i - zeta j| ^ 3

lemma hasDerivAt_one_div_sq_right (c x : ℝ) (h : x ≠ c) :
    HasDerivAt (fun t => 1 / (t - c) ^ 2) (-2 / (x - c) ^ 3) x := by
  have hne : x - c ≠ 0 := sub_ne_zero.mpr h
  have h1 : HasDerivAt (fun t : ℝ => t - c) 1 x := (hasDerivAt_id x).sub_const c
  have h2 := h1.pow 2
  have h3 := h2.inv (pow_ne_zero 2 hne)
  simp only [one_div]
  convert h3 using 1
  field_simp
  ring

lemma hasDerivAt_one_div_sq_left (c x : ℝ) (h : c ≠ x) :
    HasDerivAt (fun t => 1 / (c - t) ^ 2) (2 / (c - x) ^ 3) x := by
  have hne : c - x ≠ 0 := sub_ne_zero.mpr h
  have h1 : HasDerivAt (fun t : ℝ => c - t) (-1) x := by
    simpa using (hasDerivAt_const x c).sub (hasDerivAt_id x)
  have h2 := h1.pow 2
  have h3 := h2.inv (pow_ne_zero 2 hne)
  simp only [one_div]
  convert h3 using 1
  field_simp
  ring

lemma hasDerivAt_coulomb_sum (N : ℕ) (zeta : Fin N → ℝ)
    (hdist : ∀ i j : Fin N, i ≠ j → zeta i ≠ zeta j) (m n : Fin N)
    (s : Finset (Fin N)) (hs : n ∉ s) :
    HasDerivAt
      (fun t => ∑ j ∈ s, 1 / (Function.update zeta m t n - Function.update zeta m t j) ^ 2)
      (∑ j ∈ s, (if m = n then -2 / (zeta n - zeta j) ^ 3
        else if j = m then 2 / (zeta n - zeta m) ^ 3 else 0))
      (zeta m) := by
  apply HasDerivAt.sum
  intro j hj
  rcases eq_or_ne m n with hmn | hmn
  · subst hmn
    have hjm : j ≠ m := fun h => hs (h ▸ hj)
    rw [if_pos rfl]
    have hterm : (fun t => 1 / (Function.update zeta m t m - Function.update zeta m t j) ^ 2)
        = fun t => 1 / (t - zeta j) ^ 2 := by
      funext t
      rw [Function.update_same, Function.update_noteq hjm]
    rw [hterm]
    exact hasDerivAt_one_div_sq_right (zeta j) (zeta m) (hdist m j (Ne.symm hjm))
  · rw [if_neg hmn]
    rcases eq_or_ne j m with hjm | hjm
    · rw [if_pos hjm]
      have hterm : (fun t => 1 / (Function.update zeta m t n - Function.update zeta m t j) ^ 2)
          = fun t => 1 / (zeta n - t) ^ 2 := by
        funext t
        rw [Function.update_noteq (Ne.symm hmn), hjm, Function.update_same]
      rw [hterm]
      exact hasDerivAt_one_div_sq_left (zeta n) (zeta m) (hdist n m (Ne.symm hmn))
    · rw [if_neg hjm]
      have hterm : (fun t => 1 / (Function.update zeta m t n - Function.update zeta m t j) ^ 2)
          = fun _ => 1 / (zeta n - zeta j) ^ 2 := by
        funext t
        rw [Function.update_noteq (Ne.symm hmn), Function.update_noteq hjm]
      rw [hterm]
      exact hasDerivAt_const _ _

lemma cube_eq_abs_cube_of_lt {a b : ℝ} (h : a < b) : (b - a) ^ 3 = |b - a| ^ 3 := by
  rw [abs_of_pos (sub_pos.mpr h)]

lemma cube_eq_neg_abs_cube_of_gt {a b : ℝ} (h : b < a) : (b - a) ^ 3 = -(|b - a| ^ 3) := by
  rw [abs_of_neg (by linarith : b - a < 0), ← Odd.neg_pow (by decide : Odd 3), neg_neg]

/-- Claim C2 (amended): whenever the components of `ζ` are strictly
increasing (the index convention under which the pairwise distances match
their absolute values), the matrix supplied to the root finder by the
equilibrium solvers is the analytic Jacobian of the force-balance residual:
entry `(n, m)` is the derivative at `ζ_m` of `F_n` as a function of the
`m`-th coordinate.  For merely pairwise-distinct, unsorted `ζ` the
off-diagonal entries differ in sign from the true partial derivative (see
the counterexample). -/
theorem jac_is_partial_derivative (N : ℕ) (dV ddV : ℝ → ℝ) (r0 : ℝ) (zeta : Fin N → ℝ)
    (hdV : ∀ x, HasDerivAt dV (ddV x) x) (hmono : StrictMono zeta) (n m : Fin N) :
    HasDerivAt (fun t => solfun N dV r0 (Function.update zeta m t) n)
      (jac N ddV r0 zeta n m) (zeta m) := by
  have hdist : ∀ i j : Fin N, i ≠ j → zeta i ≠ zeta j := fun i j h => hmono.injective.ne h
  have h0 : HasDerivAt (fun t => dV (Function.update zeta m t n))
      (if m = n then ddV (zeta n) else 0) (zeta m) := by
    rcases eq_or_ne m n with rfl | hmn
    · rw [if_pos rfl]
      have hfn : (fun t => dV (Function.update zeta m t m)) = dV := by
        funext t; rw [Function.update_same]
      rw [hfn]
      exact hdV (zeta m)
    · rw [if_neg hmn]
      have hfn : (fun t => dV (Function.update zeta m t n)) = fun _ => dV (zeta n) := by
        funext t; rw [Function.update_noteq (Ne.symm hmn)]
      rw [hfn]
      exact hasDerivAt_const _ _
  have hs1 := hasDerivAt_coulomb_sum N zeta hdist m n
    (Finset.univ.filter (fun j => j < n)) (by simp)
  have hs2 := hasDerivAt_coulomb_sum N zeta hdist m n
    (Finset.univ.filter (fun j => n < j)) (by simp)
  have htotal := h0.add ((hs1.neg.add hs2).const_mul (e / (4 * pi * epsilon0 * r0)))
  have hval : jac N ddV r0 zeta n m
      = (if m = n then ddV (zeta n) else 0) + e / (4 * pi * epsilon0 * r0) *
          (-(∑ j ∈ Finset.univ.filter (fun j => j < n),
              (if m = n then -2 / (zeta n - zeta j) ^ 3
                else if j = m then 2 / (zeta n - zeta m) ^ 3 else 0))
            + ∑ j ∈ Finset.univ.filter (fun j => n < j),
              (if m = n then -2 / (zeta n - zeta j) ^ 3
                else if j = m then 2 / (zeta n - zeta m) ^ 3 else 0)) := by
    rcases eq_or_ne m n with rfl | hmn
    · simp only [jac, Matrix.of_apply, eq_self_iff_true, if_true]
      have e1 : ∑ j ∈ Finset.univ.filter (fun j => j < m), (-2 / (zeta m - zeta j) ^ 3)
          = -2 * ∑ j ∈ Finset.univ.filter (fun j => j < m), 1 / (zeta m - zeta j) ^ 3 := by
        rw [Finset.mul_sum]
        exact Finset.sum_congr rfl fun j _ => by ring
      have e2 : ∑ j ∈ Finset.univ.filter (fun j => m < j), (-2 / (zeta m - zeta j) ^ 3)
          = -2 * ∑ j ∈ Finset.univ.filter (fun j => m < j), 1 / (zeta m - zeta j) ^ 3 := by
        rw [Finset.mul_sum]
        exact Finset.sum_congr rfl fun j _ => by ring
      rw [e1, e2]
      ring
    · simp only [jac, Matrix.of_apply, if_neg hmn]
      rw [Finset.sum_ite_eq' (Finset.univ.filter (fun j => j < n)) m
          (fun _ => 2 / (zeta n - zeta m) ^ 3),
        Finset.sum_ite_eq' (Finset.univ.filter (fun j => n < j)) m
          (fun _ => 2 / (zeta n - zeta m) ^ 3)]
      simp only [Finset.mem_filter, Finset.mem_univ, true_and]
      rcases hmn.lt_or_lt with hlt | hlt
      · rw [if_pos hlt, if_neg (not_lt.mpr hlt.le),
          cube_eq_abs_cube_of_lt (hmono hlt)]
        ring
      · rw [if_neg (not_lt.mpr hlt.le), if_pos hlt,
          cube_eq_neg_abs_cube_of_gt (hmono hlt), div_neg]
        ring
  rw [hval]
  exact htotal

/-- Witness for `jac_is_partial_derivative`: the zero potential, `r0 = 1`,
`N = 2` and the strictly increasing configuration `ζ = (0, 1)`, at entry
`(0, 1)`. -/
theorem jac_is_partial_derivative_witness :
    HasDerivAt
      (fun t => solfun 2 (fun _ => (0:ℝ)) 1 (Function.update ![(0:ℝ), 1] 1 t) 0)
      (jac 2 (fun _ => (0:ℝ)) 1 ![(0:ℝ), 1] 0 1) ((![(0:ℝ), 1]) 1) :=
  jac_is_partial_derivative 2 (fun _ => (0:ℝ)) (fun _ => (0:ℝ)) 1 ![(0:ℝ), 1]
    (fun x => hasDerivAt_const x 0)
    (by
      intro a b hab
      fin_cases a <;> fin_cases b <;> simp_all <;> norm_num)
    0 1

/-- Counterexample to claim C2 as stated: at the pairwise-distinct but
unsorted configuration `ζ = (1, 0)` (zero potential, `r0` the fixed
`globalvar` length scale), the entry `(0, 1)` supplied by `jac` is
`-2κ/|ζ_0-ζ_1|^3 = -2κ`, while the true partial derivative of the residual
`F_0` with respect to `ζ_1` at `ζ_1 = 0` is `+2κ`; so `jac` is NOT the
derivative of the force-balance system there. -/
theorem jac_not_partial_derivative_unsorted :
    ¬ HasDerivAt
        (fun t => solfun 2 (fun _ => (0:ℝ)) r0glob (Function.update ![(1:ℝ), 0] 1 t) 0)
        (jac 2 (fun _ => (0:ℝ)) r0glob ![(1:ℝ), 0] 0 1) 0 := by
  intro hcontra
  have hfun : (fun t => solfun 2 (fun _ => (0:ℝ)) r0glob (Function.update ![(1:ℝ), 0] 1 t) 0)
      = fun t => e / (4 * pi * epsilon0 * r0glob) * (1 / (1 - t) ^ 2) := by
    funext t
    simp only [solfun, fin2_filter_lt_zero, fin2_filter_zero_lt, Finset.sum_empty,
      Finset.sum_singleton]
    rw [Function.update_noteq (by decide : (0 : Fin 2) ≠ 1), Function.update_same]
    simp only [Matrix.cons_val_zero]
    ring
  rw [hfun] at hcontra
  have htrue : HasDerivAt (fun t => e / (4 * pi * epsilon0 * r0glob) * (1 / (1 - t) ^ 2))
      (e / (4 * pi * epsilon0 * r0glob) * (2 / (1 - 0) ^ 3)) 0 :=
    (hasDerivAt_one_div_sq_left 1 0 (by norm_num)).const_mul _
  have huniq := hcontra.unique htrue
  have hjac : jac 2 (fun _ => (0:ℝ)) r0glob ![(1:ℝ), 0] 0 1
      = -2 * e / (4 * pi * epsilon0 * r0glob) := by
    simp only [jac, Matrix.of_apply, if_neg (by decide : ¬ (1 : Fin 2) = 0),
      Matrix.cons_val_zero, Matrix.cons_val_one, Matrix.head_cons]
    norm_num
  rw [hjac, show ((2:ℝ) / (1 - 0) ^ 3) = 2 by norm_num] at huniq
  have hC : 0 < e / (4 * pi * epsilon0 * r0glob) :=
    div_pos e_pos
      (mul_pos (mul_pos (mul_pos (by norm_num : (0:ℝ) < 4) piBem_pos) epsilon0_pos) r0glob_pos)
  have hsplit : -2 * e / (4 * pi * epsilon0 * r0glob)
      = -2 * (e / (4 * pi * epsilon0 * r0glob)) := by ring
  rw [hsplit] at huniq
  linarith

/-- `np.max` over a nonempty coordinate list (the default value, never used
on the solvers' nonempty data, is the head). -/
noncomputable def npMax (l : List ℝ) : ℝ := l.foldr max (l.headD 0)

/-- `np.min` over a nonempty coordinate list. -/
noncomputable def npMin (l : List ℝ) : ℝ := l.foldr min (l.headD 0)

/-- The length scale computed by `eqposition_sym` (`mode1d.py` lines 57-60):
`zlim = np.max(z)`, then `r0 = zlim * unit_to_num(unit)`. -/
noncomputable def r0_eqposition_sym (z : List ℝ) (unit : String) : Except String ℝ := do
  let u ← unit_to_num unit
  pure (npMax z * u)

/-- The length scale computed by `eqposition` (`mode1d.py` lines 115-119) and
`mode1d` (lines 180-183): `zlim = max(np.abs(np.max(z)), np.abs(np.min(z)))`,
then `r0 = zlim * unit_to_num(unit)`. -/
noncomputable def r0_eqposition (z : List ℝ) (unit : String) : Except String ℝ := do
  let u ← unit_to_num unit
  pure (max |npMax z| |npMin z| * u)

/-- The length scale computed by `eqposition_analytic` (`mode1d.py` line 233)
and `mode1d_analytic` (line 281): `r0 = unit_to_num(unit)` — no data-derived
`zlim` enters. -/
def r0_eqposition_analytic (unit : String) : Except String ℝ := unit_to_num unit

/-- Claim C10 (amended): in the two sampled solver paths the length scale is
`zlim` times the unit factor (`zlim = np.max(z)` in the symmetric path,
`max(|np.max z|, |np.min z|)` in the general path), but in the analytic path
`r0` is the unit factor alone — no characteristic coordinate scale of the
data is applied there (see the counterexample). -/
theorem r0_length_scales (z : List ℝ) (unit : String) (u : ℝ)
    (hu : unit_to_num unit = .ok u) :
    r0_eqposition_sym z unit = .ok (npMax z * u) ∧
    r0_eqposition z unit = .ok (max |npMax z| |npMin z| * u) ∧
    r0_eqposition_analytic unit = .ok u := by
  refine ⟨?_, ?_, hu⟩ <;> simp [r0_eqposition_sym, r0_eqposition, hu]

/-- Witness for `r0_length_scales` at the spec's scenario unit `[um]` and
data `[-100, 0, 100]`. -/
theorem r0_length_scales_witness :
    unit_to_num "[um]" = .ok 1e-6 ∧
      (r0_eqposition_sym [-100, 0, 100] "[um]" = .ok (npMax [-100, 0, 100] * 1e-6) ∧
        r0_eqposition [-100, 0, 100] "[um]"
          = .ok (max |npMax [-100, 0, 100]| |npMin [-100, 0, 100]| * 1e-6) ∧
        r0_eqposition_analytic "[um]" = .ok 1e-6) :=
  ⟨rfl, r0_length_scales [-100, 0, 100] "[um]" 1e-6 rfl⟩

lemma npMax_scenario : npMax [(-100 : ℝ), 0, 100] = 100 := by
  unfold npMax
  simp only [List.headD_cons, List.foldr_cons, List.foldr_nil]
  rw [max_eq_left (by norm_num : (-100:ℝ) ≤ 100),
    max_eq_right (by norm_num : (0:ℝ) ≤ 100),
    max_eq_right (by norm_num : (-100:ℝ) ≤ 100)]

lemma npMin_scenario : npMin [(-100 : ℝ), 0, 100] = -100 := by
  unfold npMin
  simp only [List.headD_cons, List.foldr_cons, List.foldr_nil]
  rw [min_eq_right (by norm_num : (-100:ℝ) ≤ 100),
    min_eq_right (by norm_num : (-100:ℝ) ≤ 0), min_self]

/-- Counterexample to claim C10 as stated: for the spec's scenario data
`[-100, 0, 100]` in micrometers, the sampled general path uses
`r0 = zlim * 1e-6 = 1e-4`, but the analytic path uses `r0 = 1e-6`: the
analytic solver's length scale is NOT `zlim` times the unit factor. -/
theorem r0_analytic_no_data_scale :
    r0_eqposition [(-100 : ℝ), 0, 100] "[um]" = .ok 1e-4 ∧
    r0_eqposition_analytic "[um]" = .ok 1e-6 ∧ (1e-6 : ℝ) ≠ 1e-4 := by
  refine ⟨?_, rfl, by norm_num⟩
  have hum : unit_to_num "[um]" = .ok 1e-6 := rfl
  simp only [r0_eqposition, hum, npMax_scenario, npMin_scenario, bind, Except.bind,
    pure, Except.pure, Except.ok.injEq]
  rw [abs_of_pos (by norm_num : (0:ℝ) < 100), abs_of_neg (by norm_num : (-100:ℝ) < 0)]
  norm_num

/-- The `eqposition` pipeline of `mode1d.py` lines 86-144 with its external
collaborators as parameters: the spline fit is represented by its derivative
callables `dV` and `ddV`, and the `scipy.optimize.root` call by
`rootResult`, which receives the residual `solfun`, the Jacobian `jac` and
the dimensionless initial guess and returns the solver's `.x` field.  The
only exception the Python function can raise is `unit_to_num`'s
`TypeError`; in particular no coincident-position check appears anywhere in
the pipeline. -/
noncomputable def eqposition_model (N : ℕ) (z : List ℝ) (dV ddV : ℝ → ℝ)
    (inipos : Fin N → ℝ) (unit : String)
    (rootResult : ((Fin N → ℝ) → Fin N → ℝ) → ((Fin N → ℝ) → Matrix (Fin N) (Fin N) ℝ) →
      (Fin N → ℝ) → (Fin N → ℝ)) : Except String (Fin N → ℝ) := do
  let zlim := max |npMax z| |npMin z|
  let u ← unit_to_num unit
  let r0 := zlim * u
  let zeta0 := rootResult (solfun N dV r0) (jac N ddV r0) (fun i => inipos i / zlim)
  pure (fun i => zeta0 i * zlim)

/-- Claim C9 (amended): the solve performs no coincident-position check at
all: for every initial guess containing two coincident ion positions (and
any recognized unit tag), `eqposition` still returns a plain value — no
error of any kind, in particular no `DegenerateConfiguration`; the
division-by-zero Coulomb terms of the residual are produced silently. -/
theorem eqposition_no_degeneracy_check (N : ℕ) (z : List ℝ) (dV ddV : ℝ → ℝ)
    (inipos : Fin N → ℝ) (unit : String) (u : ℝ)
    (rootResult : ((Fin N → ℝ) → Fin N → ℝ) → ((Fin N → ℝ) → Matrix (Fin N) (Fin N) ℝ) →
      (Fin N → ℝ) → (Fin N → ℝ))
    (i j : Fin N) (hij : i ≠ j) (hcoin : inipos i = inipos j)
    (hu : unit_to_num unit = .ok u) :
    ∃ v, eqposition_model N z dV ddV inipos unit rootResult = .ok v := by
  unfold eqposition_model
  rw [hu]
  exact ⟨_, rfl⟩

/-- Witness for `eqposition_no_degeneracy_check`: the coincident guess
`(0, 0)` with two ions, the scenario data and unit `[um]`, and a root-finder
stub returning its initial guess. -/
theorem eqposition_no_degeneracy_check_witness :
    ∃ v, eqposition_model 2 [(-100 : ℝ), 0, 100] (fun _ => 0) (fun _ => 0) ![0, 0] "[um]"
      (fun _ _ x0 => x0) = .ok v :=
  eqposition_no_degeneracy_check 2 [(-100 : ℝ), 0, 100] (fun _ => 0) (fun _ => 0) ![0, 0]
    "[um]" 1e-6 (fun _ _ x0 => x0) 0 1 (by decide) rfl rfl

/-- Counterexample to claim C9 as stated: with the coincident initial guess
`(0, 0)` the embedded solve does not fail at all — it returns the scaled
root-finder output (`(0, 0)` for a root finder that returns its initial
guess), with no `DegenerateConfiguration` error anywhere. -/
theorem eqposition_ok_on_coincident_guess :
    (![0, 0] : Fin 2 → ℝ) 0 = (![0, 0] : Fin 2 → ℝ) 1 ∧
      eqposition_model 2 [(-100 : ℝ), 0, 100] (fun _ => 0) (fun _ => 0) ![0, 0] "[um]"
        (fun _ _ x0 => x0) = .ok (fun _ => 0) := by
  refine ⟨rfl, ?_⟩
  unfold eqposition_model
  rw [show unit_to_num "[um]" = .ok 1e-6 from rfl]
  simp only [bind, Except.bind, pure, Except.pure, Except.ok.injEq]
  funext i
  fin_cases i <;> simp

end BemComsol
